import Mathlib

/-!
Verification of the nailgun process pool
(src/rust/engine/process_execution/src/nailgun/nailgun_pool.rs).

The pool keeps a bounded list of slots, each holding a fingerprinted worker
process behind an individually lockable mutex.  `acquire` reuses a matching
idle live worker, prunes dead matching workers, evicts the least recently
used idle slot when full, and otherwise spawns a fresh worker.

Shallow embedding conventions:
* `Instant` is modelled as a `Nat` number of seconds.
* A slot's mutex state is the Boolean field `locked` (`try_lock_arc`
  succeeds iff `locked = false`); holding a returned guard is modelled by
  setting `locked := true` in the resulting slot list.
* A child's exit is the Boolean field `exited` (`handle.try_wait()` returns
  `Some status` iff `exited = true`).
* Workers are identified by a `pid : Nat`; spawning (`start_new`) is an
  effect, so `acquire` takes its outcome as an explicit
  `Except String Nat` argument.
-/

namespace NailgunPool

/-- Model of `NailgunProcessFingerprint`: a name together with the request
digest (a 256-bit hash, modelled as a natural number). -/
structure NailgunProcessFingerprint where
  name : String
  fingerprint : Nat
deriving DecidableEq, Repr

/-- Model of `PoolEntry`: fingerprint, last-used instant, and the worker
process.  The worker is represented by its identity `pid`, the state of its
mutex (`locked`), and whether its child has exited (`exited`). -/
structure PoolEntry where
  fingerprint : NailgunProcessFingerprint
  last_used : Nat
  pid : Nat
  locked : Bool
  exited : Bool
deriving DecidableEq, Repr

/-- Model of `Vec::swap_remove(i)`: replace element `i` with the last
element and pop the last element.  (Rust panics on an out-of-bounds index;
all call sites in the source use in-bounds indices.) -/
def swapRemove (l : List PoolEntry) (i : Nat) : List PoolEntry :=
  match l.getLast? with
  | none => []
  | some a => (l.set i a).dropLast

/-- Model of the `TryUse` enum.  `Usable` carries the worker (here its
pid); the held guard is reflected in the updated entry. -/
inductive TryUse where
  | Usable (pid : Nat)
  | Busy
  | Dead
deriving DecidableEq, Repr

/-- Model of `NailgunPool::try_use`: non-blockingly lock the worker
(`Busy` if held), stamp `last_used`, then poll the child: still running
gives `Usable` (guard kept, so the entry stays locked), exited gives
`Dead` (guard dropped). -/
def try_use (e : PoolEntry) (now : Nat) : TryUse × PoolEntry :=
  if e.locked then (TryUse.Busy, e)
  else
    let e2 : PoolEntry := { e with last_used := now }
    if e2.exited then (TryUse.Dead, e2)
    else (TryUse.Usable e2.pid, { e2 with locked := true })

/-- The loop body of `NailgunPool::find_usable`: walk the entries (with
`idx` the index of the head), skipping non-matching fingerprints, and on a
match dispatch on `try_use`.  Returns the result of the scan, the updated
entries, and the collected `dead_processes` indices (in increasing order,
matching the push order of the source). -/
def fuGo (fp : NailgunProcessFingerprint) (now : Nat) :
    Nat → List PoolEntry → Option (Nat × Nat) × List PoolEntry × List Nat
  | _, [] => (none, [], [])
  | idx, e :: tl =>
    if e.fingerprint = fp then
      match try_use e now with
      | (TryUse.Usable pid, e2) => (some (idx, pid), e2 :: tl, [])
      | (TryUse.Busy, e2) =>
        let r := fuGo fp now (idx + 1) tl
        (r.1, e2 :: r.2.1, r.2.2)
      | (TryUse.Dead, e2) =>
        let r := fuGo fp now (idx + 1) tl
        (r.1, e2 :: r.2.1, idx :: r.2.2)
    else
      let r := fuGo fp now (idx + 1) tl
      (r.1, e :: r.2.1, r.2.2)

/-- Model of `NailgunPool::find_usable`: scan for a usable matching entry;
if none is found, swap-remove the remembered dead indices in reverse
order.  Returns the scan result (index and borrowed pid) together with the
updated entry list. -/
def find_usable (entries : List PoolEntry) (fp : NailgunProcessFingerprint)
    (now : Nat) : Option (Nat × Nat) × List PoolEntry :=
  match fuGo fp now 0 entries with
  | (some x, entries2, _) => (some x, entries2)
  | (none, entries2, ds) => (none, ds.reverse.foldl swapRemove entries2)

/-- The loop of `NailgunPool::find_lru_idle`: `age` is the running
`lru_age`, `acc` the running `lru`, `idx` the index of the head. -/
def lruGo : List PoolEntry → Nat → Nat → Option Nat → Option Nat
  | [], _, _, acc => acc
  | e :: tl, idx, age, acc =>
    if e.locked = false ∧ e.last_used < age then
      lruGo tl (idx + 1) e.last_used (some idx)
    else
      lruGo tl (idx + 1) age acc

/-- Model of `NailgunPool::find_lru_idle`: among entries whose worker can
be non-blockingly locked, return the index of the one with the smallest
`last_used`, starting from an `lru_age` of now plus 24 hours (seconds). -/
def find_lru_idle (entries : List PoolEntry) (now : Nat) : Option Nat :=
  lruGo entries 0 (now + 60 * 60 * 24) none

/-- The error message produced when the pool is full and no slot is idle. -/
def noIdleSlotsMsg : String := "No idle slots in nailgun pool."

/-- Model of `NailgunPool::acquire` at the slot-table level.  `spawn` is
the outcome of `NailgunProcess::start_new` (the fresh worker's pid on
success).  Returns the borrowed worker's pid (or the error string) and the
updated slot table.  On success the pushed entry is immediately locked
(`process.lock_arc()` on a freshly created mutex). -/
def acquire (entries : List PoolEntry) (size : Nat)
    (fp : NailgunProcessFingerprint) (now : Nat)
    (spawn : Except String Nat) : Except String Nat × List PoolEntry :=
  match find_usable entries fp now with
  | (some (_, pid), entries2) => (Except.ok pid, entries2)
  | (none, entries2) =>
    if entries2.length ≥ size then
      match find_lru_idle entries2 now with
      | none => (Except.error noIdleSlotsMsg, entries2)
      | some idx =>
        let entries3 := swapRemove entries2 idx
        match spawn with
        | Except.error e => (Except.error e, entries3)
        | Except.ok pid =>
          (Except.ok pid,
           entries3 ++ [⟨fp, now, pid, true, false⟩])
    else
      match spawn with
      | Except.error e => (Except.error e, entries2)
      | Except.ok pid =>
        (Except.ok pid,
         entries2 ++ [⟨fp, now, pid, true, false⟩])

/-- The update `try_use` applies to a scanned matching entry that is not
busy: stamp `last_used := now`.  (The scan leaves busy and non-matching
entries untouched.) -/
def stampScan (fp : NailgunProcessFingerprint) (now : Nat) (e : PoolEntry) :
    PoolEntry :=
  if e.fingerprint = fp ∧ e.locked = false then { e with last_used := now } else e

/-- The index list `dead_processes` collected by a scan over `l` whose
head sits at index `idx`: the indices of entries with matching
fingerprint whose mutex is free and whose child has exited. -/
def deadIdxs (fp : NailgunProcessFingerprint) (idx : Nat)
    (l : List PoolEntry) : List Nat :=
  ((l.enumFrom idx).filter fun p =>
    decide (p.2.fingerprint = fp ∧ p.2.locked = false ∧ p.2.exited = true)).map
    Prod.fst

/-- Description, taken from the specification, of the table after a
`find_usable` scan that found no usable slot: every inspected (matching,
non-busy) entry has its `last_used` stamped, and the entries observed
Dead are swap-removed, processing the remembered indices in reverse
order. -/
def pruneDeadSpec (entries : List PoolEntry) (fp : NailgunProcessFingerprint)
    (now : Nat) : List PoolEntry :=
  (deadIdxs fp 0 entries).reverse.foldl swapRemove
    (entries.map (stampScan fp now))

/-- Replace the entry at index `i` by `f` applied to it (identity when out
of bounds).  Used to model environment transitions on single slots. -/
def modifyIdx (l : List PoolEntry) (i : Nat) (f : PoolEntry → PoolEntry) :
    List PoolEntry :=
  match l, i with
  | [], _ => []
  | e :: tl, 0 => f e :: tl
  | e :: tl, n + 1 => e :: modifyIdx tl n f

/-- The observable operations on a pool: an `acquire` call (with the
requested fingerprint, the current instant, and the outcome of a potential
spawn), the release of a borrow (the slot's mutex is dropped), the drop of
a borrow without release (the child is killed and the mutex dropped), and
a spontaneous child exit. -/
inductive PoolOp where
  | acquireOp (fp : NailgunProcessFingerprint) (now : Nat)
      (spawn : Except String Nat)
  | releaseOp (i : Nat)
  | cancelOp (i : Nat)
  | childExitOp (i : Nat)

/-- Apply one pool operation to the slot table of a pool of size `size`. -/
def applyOp (size : Nat) (entries : List PoolEntry) : PoolOp → List PoolEntry
  | PoolOp.acquireOp fp now spawn => (acquire entries size fp now spawn).2
  | PoolOp.releaseOp i => modifyIdx entries i fun e => { e with locked := false }
  | PoolOp.cancelOp i =>
    modifyIdx entries i fun e => { e with locked := false, exited := true }
  | PoolOp.childExitOp i => modifyIdx entries i fun e => { e with exited := true }

/-- Run a sequence of pool operations from a given slot table. -/
def runOps (size : Nat) (ops : List PoolOp) (entries : List PoolEntry) :
    List PoolEntry :=
  ops.foldl (applyOp size) entries

/-! The port-line pattern and `read_port`. -/

/-- Character class `\s` of the regex crate, restricted to ASCII (the
port lines of interest are ASCII). -/
def isWs (c : Char) : Bool :=
  c = ' ' ∨ c = '\t' ∨ c = '\n' ∨ c = '\x0b' ∨ c = '\x0c' ∨ c = '\r'

/-- Character class `\d` of the regex crate, restricted to ASCII digits
(a non-ASCII digit in the capture would fail the `u16` parse anyway). -/
def isDigitCh (c : Char) : Bool :=
  '0' ≤ c ∧ c ≤ '9'

/-- The capture of `NAILGUN_PORT_REGEX`, the pattern
`.*\s+port\s+(\d+)\.$`, on a haystack (the first stdout line, so free of a
trailing newline).  The `$` pins the match to the end of the haystack and
the leading greedy `.*` makes the first match of `captures_iter` capture
the maximal digit run directly before a final period, provided it is
preceded by a non-empty whitespace run, the literal `port`, at least one
whitespace character, and an arbitrary newline-free remainder (`.` does
not match a newline, while `\s` does).  Works on the reversed character
list; returns the captured digit group. -/
def nailgunPortCapture (line : String) : Option String :=
  match line.data.reverse with
  | [] => none
  | c :: r1 =>
    if c = '.' then
      let ds := r1.takeWhile isDigitCh
      if ds.isEmpty then none
      else
        let r2 := r1.drop ds.length
        let ws2 := r2.takeWhile isWs
        if ws2.isEmpty then none
        else
          let r3 := r2.drop ws2.length
          if r3.take 4 = ['t', 'r', 'o', 'p'] then
            let r4 := r3.drop 4
            let ws1 := r4.takeWhile isWs
            if ws1.isEmpty then none
            else if (r4.drop ws1.length).any (fun d => d = '\n') then none
            else some (String.mk ds.reverse)
          else none
    else none

/-- Numeric value of a digit string (the captured group is all ASCII
digits, so this is the value `str::parse` computes before its range
check). -/
def digitsVal (s : String) : Nat :=
  s.data.foldl (fun acc c => acc * 10 + (c.toNat - '0'.toNat)) 0

/-- Model of `port.parse::<u16>()` on a non-empty all-digit capture: fails
iff the value exceeds `u16::MAX`. -/
def parseU16 (s : String) : Option Nat :=
  if digitsVal s < 65536 then some (digitsVal s) else none

/-- Model of `read_port`.  Effects are passed as values: `port_line` is
the outcome of reading the first stdout line (`Except.error` when stdout
is missing, empty, or unreadable), `exit_status` is what `try_wait`
observes (the Display form of the status when the child has exited),
`stderr` is the child's captured stderr.  The Display text of
`ParseIntError` is environment-defined and elided from the parse-failure
message. -/
def read_port (port_line : Except String String) (exit_status : Option String)
    (stderr : String) : Except String Nat :=
  match port_line with
  | Except.error e =>
    match exit_status with
    | some status =>
      Except.error
        ("Nailgun failed to start: exited with " ++ status ++ ", stderr:\n"
          ++ stderr)
    | none => Except.error e
  | Except.ok line =>
    match nailgunPortCapture line with
    | none =>
      Except.error ("Output for nailgun server was unexpected:\n" ++ reprStr line)
    | some digits =>
      match parseU16 digits with
      | some n => Except.ok n
      | none => Except.error ("Error parsing port " ++ digits ++ "!")

/-- Model of a constructed `NailgunProcess` as far as the claims need it:
the data recorded by `start_new`. -/
structure NailgunProcess where
  name : String
  fingerprint : NailgunProcessFingerprint
  workdir : String
  port : Nat
deriving DecidableEq, Repr

/-- Model of `NailgunProcess::start_new`.  The fallible effects are passed
as values in source order: `tempdir` (workdir allocation), `prep`
(`prepare_workdir`), `materialize` (`materialize_directory`), `spawnRes`
(`Command::spawn`), then the inputs of `read_port`, then `clear`
(`clear_workdir`).  Each step's error propagates before the next step
runs. -/
def start_new (name : String) (fp : NailgunProcessFingerprint)
    (tempdir : Except String String) (prep : Except String Unit)
    (materialize : Except String Unit) (spawnRes : Except String Unit)
    (port_line : Except String String) (exit_status : Option String)
    (stderr : String) (clear : Except String Unit) :
    Except String NailgunProcess := do
  let workdir ← tempdir
  let _ ← prep
  let _ ← materialize
  let _ ← spawnRes
  let port ← read_port port_line exit_status stderr
  let _ ← clear
  pure ⟨name, fp, workdir, port⟩

/-! The borrow handle. -/

/-- Model of `BorrowedNailgunProcess`: either holds the guard over a
worker or is empty (released).  Panics of the source (`unwrap`/`expect`)
are modelled by `Option`-valued operations returning `none`. -/
structure BorrowedNailgunProcess where
  inner : Option NailgunProcess
deriving DecidableEq, Repr

namespace BorrowedNailgunProcess

/-- Model of `BorrowedNailgunProcess::new`. -/
def mkBorrow (p : NailgunProcess) : BorrowedNailgunProcess := ⟨some p⟩

/-- Accessor `name`; `none` models the panic of `unwrap` after release. -/
def name (b : BorrowedNailgunProcess) : Option String :=
  b.inner.map NailgunProcess.name

/-- Accessor `port`; `none` models the panic of `unwrap` after release. -/
def port (b : BorrowedNailgunProcess) : Option Nat :=
  b.inner.map NailgunProcess.port

/-- Accessor `address` (`127.0.0.1:port`); `none` models the panic after
release. -/
def address (b : BorrowedNailgunProcess) : Option (String × Nat) :=
  b.inner.map fun p => ("127.0.0.1", p.port)

/-- Accessor `workdir_path`; `none` models the panic after release. -/
def workdir_path (b : BorrowedNailgunProcess) : Option String :=
  b.inner.map NailgunProcess.workdir

/-- Model of `BorrowedNailgunProcess::release`.  `clear` is the outcome of
`clear_workdir` on the worker's workdir.  The outer `none` models the
panic of `expect` when the borrow is already empty.  On a clear failure
the error propagates and the inner guard is still held; on success the
guard is taken and dropped. -/
def release (b : BorrowedNailgunProcess) (clear : Except String Unit) :
    Option (Except String Unit × BorrowedNailgunProcess) :=
  match b.inner with
  | none => none
  | some _ =>
    match clear with
    | Except.error e => some (Except.error e, b)
    | Except.ok _ => some (Except.ok (), ⟨none⟩)

end BorrowedNailgunProcess

/-! Theorems. -/

/-- Claim C6: a first stdout line matching `.*\s+port\s+(\d+)\.$` makes
`read_port` return the captured digit group parsed as a `u16` (so
`"Listening on port 54321."` yields 54321 and `"ready port 0."` yields 0),
and a first line that does not match the pattern makes `read_port` return
an error rather than a port, whether or not the child is still running. -/
theorem read_port_parse (st : Option String) (se : String) :
    read_port (Except.ok "Listening on port 54321.") st se = Except.ok 54321 ∧
    read_port (Except.ok "ready port 0.") st se = Except.ok 0 ∧
    (∀ line d, nailgunPortCapture line = some d → digitsVal d < 65536 →
      read_port (Except.ok line) st se = Except.ok (digitsVal d)) ∧
    (∀ line, nailgunPortCapture line = none →
      read_port (Except.ok line) st se =
        Except.error ("Output for nailgun server was unexpected:\n"
          ++ reprStr line)) := by
  refine ⟨rfl, rfl, ?_, ?_⟩
  · intro line d hcap hval
    simp [read_port, hcap, parseU16, hval]
  · intro line hcap
    simp [read_port, hcap]

/-- Witness for C6 at concrete inputs: the port lines of the claim parse
to 54321 and 0, and a non-matching line while the child is running yields
an error. -/
theorem read_port_parse_witness :
    read_port (Except.ok "Listening on port 54321.") none "" = Except.ok 54321 ∧
    read_port (Except.ok "ready port 0.") none "" = Except.ok 0 ∧
    read_port (Except.ok "junk") none "" =
      Except.error ("Output for nailgun server was unexpected:\n"
        ++ reprStr "junk") :=
  ⟨(read_port_parse none "").1, (read_port_parse none "").2.1,
    (read_port_parse none "").2.2.2 "junk" (by decide)⟩

/-- Claim C7: when every step before the port read succeeds, the port-line
read fails, and the child has already exited, `start_new` returns exactly
the error string built from the child's exit status and its fully
captured stderr; when the port-line read fails but the child is still
running, the returned error is the read error itself for every stderr, so
the stderr-bearing message is not produced. -/
theorem start_new_startup_failure (name wd e se : String)
    (fp : NailgunProcessFingerprint) (st : String)
    (clear : Except String Unit) :
    start_new name fp (Except.ok wd) (Except.ok ()) (Except.ok ())
        (Except.ok ()) (Except.error e) (some st) se clear =
      Except.error
        ("Nailgun failed to start: exited with " ++ st ++ ", stderr:\n" ++ se) ∧
    start_new name fp (Except.ok wd) (Except.ok ()) (Except.ok ())
        (Except.ok ()) (Except.error e) none se clear = Except.error e :=
  ⟨rfl, rfl⟩

/-- Claim C8: `release` clears the workdir before giving up the guard.  A
clear failure makes `release` return that error with the borrow unchanged
(the guard is still held, and all accessors still work on it); a clear
success makes `release` return ok with the borrow emptied. -/
theorem release_clear_then_drop (p : NailgunProcess) (e : String) :
    BorrowedNailgunProcess.release (BorrowedNailgunProcess.mkBorrow p)
        (Except.error e) =
      some (Except.error e, BorrowedNailgunProcess.mkBorrow p) ∧
    (BorrowedNailgunProcess.mkBorrow p).name = some p.name ∧
    (BorrowedNailgunProcess.mkBorrow p).port = some p.port ∧
    (BorrowedNailgunProcess.mkBorrow p).address = some ("127.0.0.1", p.port) ∧
    (BorrowedNailgunProcess.mkBorrow p).workdir_path = some p.workdir ∧
    BorrowedNailgunProcess.release (BorrowedNailgunProcess.mkBorrow p)
        (Except.ok ()) =
      some (Except.ok (), ⟨none⟩) :=
  ⟨rfl, rfl, rfl, rfl, rfl, rfl⟩

/-- Claim C9: before release all four accessors succeed; a successful
release empties the borrow; and on an empty borrow (release completed)
each accessor and a second `release` call hit the modelled panic
(`none`). -/
theorem accessors_after_release (p : NailgunProcess)
    (c : Except String Unit) :
    (BorrowedNailgunProcess.mkBorrow p).name = some p.name ∧
    (BorrowedNailgunProcess.mkBorrow p).port = some p.port ∧
    (BorrowedNailgunProcess.mkBorrow p).address = some ("127.0.0.1", p.port) ∧
    (BorrowedNailgunProcess.mkBorrow p).workdir_path = some p.workdir ∧
    BorrowedNailgunProcess.release (BorrowedNailgunProcess.mkBorrow p)
        (Except.ok ()) =
      some (Except.ok (), ⟨none⟩) ∧
    BorrowedNailgunProcess.name ⟨none⟩ = none ∧
    BorrowedNailgunProcess.port ⟨none⟩ = none ∧
    BorrowedNailgunProcess.address ⟨none⟩ = none ∧
    BorrowedNailgunProcess.workdir_path ⟨none⟩ = none ∧
    BorrowedNailgunProcess.release ⟨none⟩ c = none :=
  ⟨rfl, rfl, rfl, rfl, rfl, rfl, rfl, rfl, rfl, rfl⟩

/-- Full characterization of the `find_lru_idle` loop.  Either no entry
is both unlocked and strictly younger than `age`, and the loop returns
the accumulator, or the loop returns `i0` plus the position of the first
entry attaining the minimal `last_used` among the unlocked entries below
`age`. -/
theorem lruGo_spec (l : List PoolEntry) : ∀ (i0 age : Nat) (acc : Option Nat),
    (lruGo l i0 age acc = acc ∧
      ∀ k (hk : k < l.length),
        (l.get ⟨k, hk⟩).locked = true ∨ age ≤ (l.get ⟨k, hk⟩).last_used) ∨
    (∃ k, ∃ hk : k < l.length,
      lruGo l i0 age acc = some (i0 + k) ∧
      (l.get ⟨k, hk⟩).locked = false ∧
      (l.get ⟨k, hk⟩).last_used < age ∧
      ∀ j (hj : j < l.length), (l.get ⟨j, hj⟩).locked = false →
        (l.get ⟨j, hj⟩).last_used < age →
        (l.get ⟨k, hk⟩).last_used ≤ (l.get ⟨j, hj⟩).last_used ∧
        ((l.get ⟨j, hj⟩).last_used = (l.get ⟨k, hk⟩).last_used → k ≤ j)) := by
  induction l with
  | nil =>
    intro i0 age acc
    left
    exact ⟨rfl, fun k hk => absurd hk (Nat.not_lt_zero k)⟩
  | cons e tl ih =>
    intro i0 age acc
    by_cases hc : e.locked = false ∧ e.last_used < age
    · have hgo : lruGo (e :: tl) i0 age acc =
          lruGo tl (i0 + 1) e.last_used (some i0) := by
        simp [lruGo, hc]
      rcases ih (i0 + 1) e.last_used (some i0) with
        ⟨hres, hall⟩ | ⟨k, hk, hres, hlock, hlt, hmin⟩
      · right
        refine ⟨0, Nat.succ_pos tl.length, ?_, hc.1, hc.2, ?_⟩
        · rw [hgo, hres, Nat.add_zero]
        · intro j hj hjlock hjlt
          cases j with
          | zero => exact ⟨Nat.le_refl _, fun _ => Nat.le_refl 0⟩
          | succ j2 =>
            have hj2 : j2 < tl.length := Nat.lt_of_succ_lt_succ hj
            have hjlock2 : (tl.get ⟨j2, hj2⟩).locked = false := hjlock
            rcases hall j2 hj2 with hl | hle
            · rw [hl] at hjlock2
              exact Bool.noConfusion hjlock2
            · exact ⟨hle, fun _ => Nat.zero_le _⟩
      · right
        have hk2 : k + 1 < (e :: tl).length := Nat.succ_lt_succ hk
        refine ⟨k + 1, hk2, ?_, hlock, Nat.lt_trans hlt hc.2, ?_⟩
        · rw [hgo, hres]
          have harith : i0 + 1 + k = i0 + (k + 1) := by omega
          rw [harith]
        · intro j hj hjlock hjlt
          cases j with
          | zero =>
            refine ⟨Nat.le_of_lt hlt, fun heq => ?_⟩
            have heq2 : e.last_used = (tl.get ⟨k, hk⟩).last_used := heq
            omega
          | succ j2 =>
            have hj2 : j2 < tl.length := Nat.lt_of_succ_lt_succ hj
            have hjlock2 : (tl.get ⟨j2, hj2⟩).locked = false := hjlock
            by_cases hage : (tl.get ⟨j2, hj2⟩).last_used < e.last_used
            · rcases hmin j2 hj2 hjlock2 hage with ⟨h1, h2⟩
              refine ⟨h1, fun heq => ?_⟩
              have heq2 : (tl.get ⟨j2, hj2⟩).last_used =
                  (tl.get ⟨k, hk⟩).last_used := heq
              exact Nat.succ_le_succ (h2 heq2)
            · have hge : e.last_used ≤ (tl.get ⟨j2, hj2⟩).last_used :=
                Nat.le_of_not_lt hage
              have hlt2 : (tl.get ⟨k, hk⟩).last_used <
                  (tl.get ⟨j2, hj2⟩).last_used := Nat.lt_of_lt_of_le hlt hge
              refine ⟨Nat.le_of_lt hlt2, fun heq => ?_⟩
              have heq2 : (tl.get ⟨j2, hj2⟩).last_used =
                  (tl.get ⟨k, hk⟩).last_used := heq
              omega
    · have hgo : lruGo (e :: tl) i0 age acc = lruGo tl (i0 + 1) age acc := by
        simp only [lruGo, if_neg hc]
      rcases ih (i0 + 1) age acc with
        ⟨hres, hall⟩ | ⟨k, hk, hres, hlock, hlt, hmin⟩
      · left
        refine ⟨hgo.trans hres, ?_⟩
        intro k hk
        cases k with
        | zero =>
          rcases Bool.eq_false_or_eq_true e.locked with hbt | hbf
          · left; exact hbt
          · right
            have hnlt : ¬ e.last_used < age := fun hlt2 => hc ⟨hbf, hlt2⟩
            exact Nat.le_of_not_lt hnlt
        | succ k2 => exact hall k2 (Nat.lt_of_succ_lt_succ hk)
      · right
        have hk2 : k + 1 < (e :: tl).length := Nat.succ_lt_succ hk
        refine ⟨k + 1, hk2, ?_, hlock, hlt, ?_⟩
        · rw [hgo, hres]
          have harith : i0 + 1 + k = i0 + (k + 1) := by omega
          rw [harith]
        · intro j hj hjlock hjlt
          cases j with
          | zero => exact absurd ⟨hjlock, hjlt⟩ hc
          | succ j2 =>
            have hj2 : j2 < tl.length := Nat.lt_of_succ_lt_succ hj
            rcases hmin j2 hj2 hjlock hjlt with ⟨h1, h2⟩
            exact ⟨h1, fun heq => Nat.succ_le_succ (h2 heq)⟩

/-- Claim C5: when every entry's `last_used` lies less than 24 hours
after `now`, `find_lru_idle` returns `none` exactly when no entry's lock
can be acquired, and otherwise returns the index of an unlocked entry
whose `last_used` is minimal among the unlocked entries, ties broken in
favour of the first-encountered one. -/
theorem find_lru_idle_min (entries : List PoolEntry) (now : Nat)
    (hskew : ∀ e ∈ entries, e.last_used < now + 60 * 60 * 24) :
    (find_lru_idle entries now = none ↔ ∀ e ∈ entries, e.locked = true) ∧
    ∀ i, find_lru_idle entries now = some i →
      ∃ hi : i < entries.length,
        (entries.get ⟨i, hi⟩).locked = false ∧
        ∀ j (hj : j < entries.length), (entries.get ⟨j, hj⟩).locked = false →
          (entries.get ⟨i, hi⟩).last_used ≤ (entries.get ⟨j, hj⟩).last_used ∧
          ((entries.get ⟨j, hj⟩).last_used = (entries.get ⟨i, hi⟩).last_used →
            i ≤ j) := by
  have hskew2 : ∀ k (hk : k < entries.length),
      (entries.get ⟨k, hk⟩).last_used < now + 60 * 60 * 24 :=
    fun k hk => hskew (entries.get ⟨k, hk⟩) (List.get_mem entries k hk)
  rcases lruGo_spec entries 0 (now + 60 * 60 * 24) none with
    ⟨hres, hall⟩ | ⟨k, hk, hres, hlock, hlt, hmin⟩
  · constructor
    · constructor
      · intro _ e he
        rcases List.mem_iff_get.mp he with ⟨⟨k, hk⟩, hget⟩
        rcases hall k hk with hl | hage
        · rw [hget] at hl; exact hl
        · exact absurd (hskew2 k hk) (Nat.not_lt_of_le hage)
      · intro _
        exact hres
    · intro i hi
      rw [show find_lru_idle entries now =
        lruGo entries 0 (now + 60 * 60 * 24) none from rfl, hres] at hi
      exact Option.noConfusion hi
  · have hres2 : find_lru_idle entries now = some k := by
      rw [show find_lru_idle entries now =
        lruGo entries 0 (now + 60 * 60 * 24) none from rfl, hres,
        Nat.zero_add]
    constructor
    · constructor
      · intro hnone
        rw [hres2] at hnone
        exact Option.noConfusion hnone
      · intro hall2
        have hlk : (entries.get ⟨k, hk⟩).locked = true :=
          hall2 (entries.get ⟨k, hk⟩) (List.get_mem entries k hk)
        rw [hlk] at hlock
        exact Bool.noConfusion hlock
    · intro i hi
      rw [hres2] at hi
      have hik : k = i := (Option.some.injEq k i).mp hi
      subst hik
      refine ⟨hk, hlock, ?_⟩
      intro j hj hjlock
      exact hmin j hj hjlock (hskew2 j hj)

/-- Witness for C5: on a concrete two-slot table with both slots idle and
stamps 5 and 3 at `now = 10`, the theorem applies and the returned index
is the minimal-stamp slot. -/
theorem find_lru_idle_min_witness :
    (∀ e ∈ ([⟨⟨"a", 1⟩, 5, 1, false, false⟩,
        ⟨⟨"b", 2⟩, 3, 2, false, false⟩] : List PoolEntry),
      e.last_used < 10 + 60 * 60 * 24) ∧
    ((find_lru_idle [⟨⟨"a", 1⟩, 5, 1, false, false⟩,
        ⟨⟨"b", 2⟩, 3, 2, false, false⟩] 10 = none ↔
      ∀ e ∈ ([⟨⟨"a", 1⟩, 5, 1, false, false⟩,
          ⟨⟨"b", 2⟩, 3, 2, false, false⟩] : List PoolEntry),
        e.locked = true) ∧
     ∀ i, find_lru_idle [⟨⟨"a", 1⟩, 5, 1, false, false⟩,
            ⟨⟨"b", 2⟩, 3, 2, false, false⟩] 10 = some i →
       ∃ hi : i < ([⟨⟨"a", 1⟩, 5, 1, false, false⟩,
            ⟨⟨"b", 2⟩, 3, 2, false, false⟩] : List PoolEntry).length,
         (([⟨⟨"a", 1⟩, 5, 1, false, false⟩,
            ⟨⟨"b", 2⟩, 3, 2, false, false⟩] : List PoolEntry).get
              ⟨i, hi⟩).locked = false ∧
         ∀ j (hj : j < ([⟨⟨"a", 1⟩, 5, 1, false, false⟩,
              ⟨⟨"b", 2⟩, 3, 2, false, false⟩] : List PoolEntry).length),
           (([⟨⟨"a", 1⟩, 5, 1, false, false⟩,
              ⟨⟨"b", 2⟩, 3, 2, false, false⟩] : List PoolEntry).get
                ⟨j, hj⟩).locked = false →
           (([⟨⟨"a", 1⟩, 5, 1, false, false⟩,
              ⟨⟨"b", 2⟩, 3, 2, false, false⟩] : List PoolEntry).get
                ⟨i, hi⟩).last_used ≤
             (([⟨⟨"a", 1⟩, 5, 1, false, false⟩,
                ⟨⟨"b", 2⟩, 3, 2, false, false⟩] : List PoolEntry).get
                  ⟨j, hj⟩).last_used ∧
           ((([⟨⟨"a", 1⟩, 5, 1, false, false⟩,
                ⟨⟨"b", 2⟩, 3, 2, false, false⟩] : List PoolEntry).get
                  ⟨j, hj⟩).last_used =
              (([⟨⟨"a", 1⟩, 5, 1, false, false⟩,
                 ⟨⟨"b", 2⟩, 3, 2, false, false⟩] : List PoolEntry).get
                   ⟨i, hi⟩).last_used → i ≤ j)) :=
  ⟨by decide, find_lru_idle_min _ 10 (by decide)⟩

/-- A scan over entries whose locks are all held observes only `Busy`
slots: nothing is stamped, collected, or returned. -/
theorem fuGo_all_busy (fp : NailgunProcessFingerprint) (now : Nat) :
    ∀ (l : List PoolEntry) (idx : Nat), (∀ e ∈ l, e.locked = true) →
      fuGo fp now idx l = (none, l, []) := by
  intro l
  induction l with
  | nil => intro idx _; rfl
  | cons e tl ih =>
    intro idx h
    have he : e.locked = true := h e (List.mem_cons_self e tl)
    have htl : ∀ x ∈ tl, x.locked = true :=
      fun x hx => h x (List.mem_cons_of_mem e hx)
    by_cases hf : e.fingerprint = fp
    · simp [fuGo, hf, try_use, he, ih (idx + 1) htl]
    · simp [fuGo, hf, ih (idx + 1) htl]

/-- `find_usable` on an all-busy table finds nothing and leaves the table
unchanged. -/
theorem find_usable_all_busy (entries : List PoolEntry)
    (fp : NailgunProcessFingerprint) (now : Nat)
    (h : ∀ e ∈ entries, e.locked = true) :
    find_usable entries fp now = (none, entries) := by
  unfold find_usable
  rw [fuGo_all_busy fp now entries 0 h]
  rfl

/-- The `find_lru_idle` loop on an all-busy table returns its
accumulator. -/
theorem lruGo_all_busy : ∀ (l : List PoolEntry) (idx age : Nat)
    (acc : Option Nat), (∀ e ∈ l, e.locked = true) →
    lruGo l idx age acc = acc := by
  intro l
  induction l with
  | nil => intro idx age acc _; rfl
  | cons e tl ih =>
    intro idx age acc h
    have he : e.locked = true := h e (List.mem_cons_self e tl)
    have htl : ∀ x ∈ tl, x.locked = true :=
      fun x hx => h x (List.mem_cons_of_mem e hx)
    have hgo : lruGo (e :: tl) idx age acc = lruGo tl (idx + 1) age acc := by
      simp [lruGo, he]
    rw [hgo]
    exact ih (idx + 1) age acc htl

/-- Claim C3 (amended): an `acquire` that finds no usable matching slot
on a table at capacity with every slot's lock held fails with the error
"No idle slots in nailgun pool." and leaves the slot table unchanged. -/
theorem acquire_no_idle_slots (entries : List PoolEntry) (size : Nat)
    (fp : NailgunProcessFingerprint) (now : Nat) (spawn : Except String Nat)
    (hfull : size ≤ entries.length) (hbusy : ∀ e ∈ entries, e.locked = true) :
    acquire entries size fp now spawn =
      (Except.error "No idle slots in nailgun pool.", entries) := by
  have h1 : find_usable entries fp now = (none, entries) :=
    find_usable_all_busy entries fp now hbusy
  have h2 : find_lru_idle entries now = none :=
    lruGo_all_busy entries 0 (now + 60 * 60 * 24) none hbusy
  simp [acquire, h1, h2, ge_iff_le, hfull, noIdleSlotsMsg]

/-- Counterexample for C3 as stated: on a full all-busy table the error
`acquire` returns is the string "No idle slots in nailgun pool.", not the
string "No idle slots". -/
theorem no_idle_slots_message_counterexample :
    (acquire [⟨⟨"a", 1⟩, 0, 1, true, false⟩] 1 ⟨"b", 2⟩ 5 (Except.ok 9)).1 =
      Except.error "No idle slots in nailgun pool." ∧
    ¬ (acquire [⟨⟨"a", 1⟩, 0, 1, true, false⟩] 1 ⟨"b", 2⟩ 5
        (Except.ok 9)).1 = Except.error "No idle slots" := by
  constructor
  · rfl
  · intro h
    have h2 : (Except.error "No idle slots in nailgun pool." :
        Except String Nat) = Except.error "No idle slots" := h
    exact absurd (Except.error.inj h2) (by decide)

/-- Witness for C3: the amended theorem applied to a concrete full
all-busy one-slot table. -/
theorem acquire_no_idle_slots_witness :
    1 ≤ ([⟨⟨"a", 1⟩, 0, 1, true, false⟩] : List PoolEntry).length ∧
    (∀ e ∈ ([⟨⟨"a", 1⟩, 0, 1, true, false⟩] : List PoolEntry),
      e.locked = true) ∧
    acquire [⟨⟨"a", 1⟩, 0, 1, true, false⟩] 1 ⟨"b", 2⟩ 5 (Except.ok 9) =
      (Except.error "No idle slots in nailgun pool.",
        [⟨⟨"a", 1⟩, 0, 1, true, false⟩]) :=
  ⟨by decide, by decide,
    acquire_no_idle_slots [⟨⟨"a", 1⟩, 0, 1, true, false⟩] 1 ⟨"b", 2⟩ 5
      (Except.ok 9) (by decide) (by decide)⟩

/-- Swap-removal never lengthens a list. -/
theorem length_swapRemove_le (l : List PoolEntry) (i : Nat) :
    (swapRemove l i).length ≤ l.length := by
  unfold swapRemove
  cases hl : l.getLast? with
  | none => exact Nat.zero_le _
  | some a =>
    rw [List.length_dropLast, List.length_set]
    omega

/-- Swap-removal at a valid index shortens the list by one. -/
theorem length_swapRemove (l : List PoolEntry) (i : Nat)
    (hi : i < l.length) : (swapRemove l i).length = l.length - 1 := by
  unfold swapRemove
  cases hl : l.getLast? with
  | none =>
    have hnil : l = [] := List.getLast?_eq_none_iff.mp hl
    rw [hnil] at hi
    exact absurd hi (Nat.not_lt_zero i)
  | some a => rw [List.length_dropLast, List.length_set]

/-- The `find_usable` scan preserves the slot count. -/
theorem fuGo_length (fp : NailgunProcessFingerprint) (now : Nat) :
    ∀ (l : List PoolEntry) (idx : Nat),
      ((fuGo fp now idx l).2.1).length = l.length := by
  intro l
  induction l with
  | nil => intro idx; rfl
  | cons e tl ih =>
    intro idx
    by_cases hf : e.fingerprint = fp
    · rcases htu : try_use e now with ⟨tu, e2⟩
      cases tu with
      | Usable pid => simp [fuGo, hf, htu]
      | Busy => simp [fuGo, hf, htu, ih (idx + 1)]
      | Dead => simp [fuGo, hf, htu, ih (idx + 1)]
    · simp [fuGo, hf, ih (idx + 1)]

/-- Folding swap-removals never lengthens a list. -/
theorem foldl_swapRemove_length_le :
    ∀ (ds : List Nat) (l : List PoolEntry),
      (List.foldl swapRemove l ds).length ≤ l.length := by
  intro ds
  induction ds with
  | nil => intro l; exact Nat.le_refl _
  | cons d tl ih =>
    intro l
    rw [List.foldl_cons]
    exact Nat.le_trans (ih (swapRemove l d)) (length_swapRemove_le l d)

/-- `find_usable` never grows the slot table. -/
theorem find_usable_length_le (entries : List PoolEntry)
    (fp : NailgunProcessFingerprint) (now : Nat) :
    ((find_usable entries fp now).2).length ≤ entries.length := by
  have hlen := fuGo_length fp now entries 0
  unfold find_usable
  rcases hgo : fuGo fp now 0 entries with ⟨res, e2, ds⟩
  rw [hgo] at hlen
  have hlen2 : e2.length = entries.length := hlen
  cases res with
  | some x =>
    show e2.length ≤ entries.length
    exact Nat.le_of_eq hlen2
  | none =>
    show (List.foldl swapRemove e2 ds.reverse).length ≤ entries.length
    exact Nat.le_trans (foldl_swapRemove_length_le ds.reverse e2)
      (Nat.le_of_eq hlen2)

/-- An index returned by `find_lru_idle` is in bounds. -/
theorem find_lru_idle_some_lt (l : List PoolEntry) (now i : Nat)
    (h : find_lru_idle l now = some i) : i < l.length := by
  rcases lruGo_spec l 0 (now + 60 * 60 * 24) none with
    ⟨hres, _⟩ | ⟨k, hk, hres, _, _, _⟩
  · rw [show find_lru_idle l now = lruGo l 0 (now + 60 * 60 * 24) none
      from rfl, hres] at h
    exact Option.noConfusion h
  · rw [show find_lru_idle l now = lruGo l 0 (now + 60 * 60 * 24) none
      from rfl, hres] at h
    have hik := Option.some.inj h
    omega

/-- `modifyIdx` preserves length. -/
theorem modifyIdx_length : ∀ (l : List PoolEntry) (i : Nat)
    (f : PoolEntry → PoolEntry), (modifyIdx l i f).length = l.length := by
  intro l
  induction l with
  | nil => intro i f; rfl
  | cons e tl ih =>
    intro i f
    cases i with
    | zero => rfl
    | succ n =>
      show (e :: modifyIdx tl n f).length = (e :: tl).length
      simp [ih n f]

/-- One `acquire` call preserves the capacity bound on the slot table. -/
theorem acquire_length_le (entries : List PoolEntry) (size : Nat)
    (fp : NailgunProcessFingerprint) (now : Nat) (spawn : Except String Nat)
    (h : entries.length ≤ size) :
    ((acquire entries size fp now spawn).2).length ≤ size := by
  have hfu := find_usable_length_le entries fp now
  unfold acquire
  rcases hres : find_usable entries fp now with ⟨r, e2⟩
  rw [hres] at hfu
  have hfu2 : e2.length ≤ entries.length := hfu
  cases r with
  | some x =>
    rcases x with ⟨i, pid⟩
    show e2.length ≤ size
    omega
  | none =>
    by_cases hge : e2.length ≥ size
    · rcases hlru : find_lru_idle e2 now with _ | idx
      · simp only [ge_iff_le, hge, if_true, hlru]
        show e2.length ≤ size
        omega
      · have hidx : idx < e2.length := find_lru_idle_some_lt e2 now idx hlru
        have hsw : (swapRemove e2 idx).length = e2.length - 1 :=
          length_swapRemove e2 idx hidx
        cases spawn with
        | error e =>
          simp only [ge_iff_le, hge, if_true, hlru]
          show (swapRemove e2 idx).length ≤ size
          omega
        | ok pid =>
          simp only [ge_iff_le, hge, if_true, hlru]
          show (swapRemove e2 idx ++
            [(⟨fp, now, pid, true, false⟩ : PoolEntry)]).length ≤ size
          rw [List.length_append]
          simp only [List.length_singleton]
          omega
    · have hlt : e2.length < size := Nat.lt_of_not_le hge
      cases spawn with
      | error e =>
        simp only [ge_iff_le, hge, if_false]
        show e2.length ≤ size
        omega
      | ok pid =>
        simp only [ge_iff_le, hge, if_false]
        show (e2 ++ [(⟨fp, now, pid, true, false⟩ : PoolEntry)]).length ≤ size
        rw [List.length_append]
        simp only [List.length_singleton]
        omega

/-- Every operation sequence preserves the capacity bound. -/
theorem runOps_length_le_aux (size : Nat) :
    ∀ (ops : List PoolOp) (entries : List PoolEntry),
      entries.length ≤ size → (runOps size ops entries).length ≤ size := by
  intro ops
  induction ops with
  | nil => intro entries h; exact h
  | cons op tl ih =>
    intro entries h
    show (runOps size tl (applyOp size entries op)).length ≤ size
    apply ih
    cases op with
    | acquireOp fp now spawn => exact acquire_length_le entries size fp now spawn h
    | releaseOp i =>
      show (modifyIdx entries i _).length ≤ size
      rw [modifyIdx_length]
      exact h
    | cancelOp i =>
      show (modifyIdx entries i _).length ≤ size
      rw [modifyIdx_length]
      exact h
    | childExitOp i =>
      show (modifyIdx entries i _).length ≤ size
      rw [modifyIdx_length]
      exact h

/-- Claim C1: starting from the empty slot table of a freshly constructed
pool with capacity at least 1, after any sequence of pool operations (in
particular after every `acquire`, successful or failed, which evicts an
idle slot before pushing when the pruned table is still at capacity) the
slot table holds at most `size` entries. -/
theorem runOps_length_le (size : Nat) (ops : List PoolOp)
    (hsize : 1 ≤ size) : (runOps size ops []).length ≤ size :=
  runOps_length_le_aux size ops [] (Nat.zero_le size)

/-- Witness for C1: a concrete pool of capacity 1 driven through two
acquires and a release stays within capacity. -/
theorem runOps_length_le_witness :
    1 ≤ 1 ∧
    (runOps 1 [PoolOp.acquireOp ⟨"a", 1⟩ 0 (Except.ok 1),
      PoolOp.releaseOp 0,
      PoolOp.acquireOp ⟨"b", 2⟩ 1 (Except.ok 2)] []).length ≤ 1 :=
  ⟨Nat.le_refl 1,
    runOps_length_le 1 [PoolOp.acquireOp ⟨"a", 1⟩ 0 (Except.ok 1),
      PoolOp.releaseOp 0,
      PoolOp.acquireOp ⟨"b", 2⟩ 1 (Except.ok 2)] (Nat.le_refl 1)⟩

/-- Unfolding of `deadIdxs` on a cons cell. -/
theorem deadIdxs_cons (fp : NailgunProcessFingerprint) (idx : Nat)
    (e : PoolEntry) (tl : List PoolEntry) :
    deadIdxs fp idx (e :: tl) =
      if e.fingerprint = fp ∧ e.locked = false ∧ e.exited = true
      then idx :: deadIdxs fp (idx + 1) tl
      else deadIdxs fp (idx + 1) tl := by
  unfold deadIdxs
  rw [show (e :: tl).enumFrom idx = (idx, e) :: tl.enumFrom (idx + 1) from rfl]
  rw [List.filter_cons]
  by_cases hc : e.fingerprint = fp ∧ e.locked = false ∧ e.exited = true
  · simp [hc]
  · simp [hc]

/-- A scan with a first usable matching entry at position `i` (nothing
usable before it) returns `idx + i` with that entry's worker, stamps the
inspected prefix, and locks the returned entry in place. -/
theorem fuGo_usable (fp : NailgunProcessFingerprint) (now : Nat) :
    ∀ (l : List PoolEntry) (idx i : Nat) (hi : i < l.length),
      (∀ j (hj : j < l.length), j < i →
        ¬((l.get ⟨j, hj⟩).fingerprint = fp ∧
          (l.get ⟨j, hj⟩).locked = false ∧
          (l.get ⟨j, hj⟩).exited = false)) →
      (l.get ⟨i, hi⟩).fingerprint = fp →
      (l.get ⟨i, hi⟩).locked = false →
      (l.get ⟨i, hi⟩).exited = false →
      (fuGo fp now idx l).1 = some (idx + i, (l.get ⟨i, hi⟩).pid) ∧
      (fuGo fp now idx l).2.1 =
        (l.take i).map (stampScan fp now) ++
          ({ l.get ⟨i, hi⟩ with last_used := now, locked := true } ::
            l.drop (i + 1)) := by
  intro l
  induction l with
  | nil => intro idx i hi; exact absurd hi (Nat.not_lt_zero i)
  | cons e tl ih =>
    intro idx i hi hpre hfpi hlocki hexi
    cases i with
    | zero =>
      have hf : e.fingerprint = fp := hfpi
      have hl : e.locked = false := hlocki
      have hx : e.exited = false := hexi
      have htu : try_use e now =
          (TryUse.Usable e.pid, { e with last_used := now, locked := true }) := by
        simp [try_use, hl, hx]
      have hgo : fuGo fp now idx (e :: tl) =
          (some (idx, e.pid),
            { e with last_used := now, locked := true } :: tl, []) := by
        simp [fuGo, hf, htu]
      constructor
      · rw [show (fuGo fp now idx (e :: tl)).1 = some (idx, e.pid)
          from congrArg Prod.fst hgo]
        rfl
      · rw [show (fuGo fp now idx (e :: tl)).2.1 =
          { e with last_used := now, locked := true } :: tl
          from congrArg (fun q => q.2.1) hgo]
        rfl
    | succ i2 =>
      have hi2 : i2 < tl.length := Nat.lt_of_succ_lt_succ hi
      have hfpi2 : (tl.get ⟨i2, hi2⟩).fingerprint = fp := hfpi
      have hlocki2 : (tl.get ⟨i2, hi2⟩).locked = false := hlocki
      have hexi2 : (tl.get ⟨i2, hi2⟩).exited = false := hexi
      have hpre2 : ∀ j (hj : j < tl.length), j < i2 →
          ¬((tl.get ⟨j, hj⟩).fingerprint = fp ∧
            (tl.get ⟨j, hj⟩).locked = false ∧
            (tl.get ⟨j, hj⟩).exited = false) :=
        fun j hj hji =>
          hpre (j + 1) (Nat.succ_lt_succ hj) (Nat.succ_lt_succ hji)
      have h0 : ¬(e.fingerprint = fp ∧ e.locked = false ∧ e.exited = false) :=
        hpre 0 (Nat.succ_pos tl.length) (Nat.succ_pos i2)
      rcases ih (idx + 1) i2 hi2 hpre2 hfpi2 hlocki2 hexi2 with ⟨ih1, ih2⟩
      have harith : idx + 1 + i2 = idx + (i2 + 1) := by omega
      by_cases hf : e.fingerprint = fp
      · rcases Bool.eq_false_or_eq_true e.locked with htt | hff
        · have htu : try_use e now = (TryUse.Busy, e) := by
            simp [try_use, htt]
          have hgo1 : (fuGo fp now idx (e :: tl)).1 =
              (fuGo fp now (idx + 1) tl).1 := by
            simp [fuGo, hf, htu]
          have hgo2 : (fuGo fp now idx (e :: tl)).2.1 =
              stampScan fp now e :: (fuGo fp now (idx + 1) tl).2.1 := by
            simp [fuGo, hf, htu, stampScan, htt]
          constructor
          · rw [hgo1, ih1, harith]
            rfl
          · rw [hgo2, ih2]
            rfl
        · have hx : e.exited = true := by
            rcases Bool.eq_false_or_eq_true e.exited with hxt | hxf
            · exact hxt
            · exact absurd ⟨hf, hff, hxf⟩ h0
          have htu : try_use e now =
              (TryUse.Dead, { e with last_used := now }) := by
            simp [try_use, hff, hx]
          have hgo1 : (fuGo fp now idx (e :: tl)).1 =
              (fuGo fp now (idx + 1) tl).1 := by
            simp [fuGo, hf, htu]
          have hgo2 : (fuGo fp now idx (e :: tl)).2.1 =
              stampScan fp now e :: (fuGo fp now (idx + 1) tl).2.1 := by
            simp [fuGo, hf, htu, stampScan, hff]
          constructor
          · rw [hgo1, ih1, harith]
            rfl
          · rw [hgo2, ih2]
            rfl
      · have hgo1 : (fuGo fp now idx (e :: tl)).1 =
            (fuGo fp now (idx + 1) tl).1 := by
          simp [fuGo, hf]
        have hgo2 : (fuGo fp now idx (e :: tl)).2.1 =
            stampScan fp now e :: (fuGo fp now (idx + 1) tl).2.1 := by
          simp [fuGo, hf, stampScan]
        constructor
        · rw [hgo1, ih1, harith]
          rfl
        · rw [hgo2, ih2]
          rfl

/-- A scan over entries none of which is usable for `fp` returns `none`,
stamps every matching non-busy entry, and collects exactly the matching
dead indices. -/
theorem fuGo_none (fp : NailgunProcessFingerprint) (now : Nat) :
    ∀ (l : List PoolEntry) (idx : Nat),
      (∀ j (hj : j < l.length),
        ¬((l.get ⟨j, hj⟩).fingerprint = fp ∧
          (l.get ⟨j, hj⟩).locked = false ∧
          (l.get ⟨j, hj⟩).exited = false)) →
      fuGo fp now idx l =
        (none, l.map (stampScan fp now), deadIdxs fp idx l) := by
  intro l
  induction l with
  | nil => intro idx _; rfl
  | cons e tl ih =>
    intro idx h
    have h0 : ¬(e.fingerprint = fp ∧ e.locked = false ∧ e.exited = false) :=
      h 0 (Nat.succ_pos tl.length)
    have htl : ∀ j (hj : j < tl.length),
        ¬((tl.get ⟨j, hj⟩).fingerprint = fp ∧
          (tl.get ⟨j, hj⟩).locked = false ∧
          (tl.get ⟨j, hj⟩).exited = false) :=
      fun j hj => h (j + 1) (Nat.succ_lt_succ hj)
    have ihtl := ih (idx + 1) htl
    by_cases hf : e.fingerprint = fp
    · rcases Bool.eq_false_or_eq_true e.locked with htt | hff
      · have htu : try_use e now = (TryUse.Busy, e) := by
          simp [try_use, htt]
        have hdead : deadIdxs fp idx (e :: tl) = deadIdxs fp (idx + 1) tl := by
          rw [deadIdxs_cons]
          simp [htt]
        have hstamp : stampScan fp now e = e := by
          simp [stampScan, htt]
        simp [fuGo, hf, htu, ihtl, hdead, hstamp]
      · have hx : e.exited = true := by
          rcases Bool.eq_false_or_eq_true e.exited with hxt | hxf
          · exact hxt
          · exact absurd ⟨hf, hff, hxf⟩ h0
        have htu : try_use e now =
            (TryUse.Dead, { e with last_used := now }) := by
          simp [try_use, hff, hx]
        have hdead : deadIdxs fp idx (e :: tl) =
            idx :: deadIdxs fp (idx + 1) tl := by
          rw [deadIdxs_cons]
          simp [hf, hff, hx]
        have hstamp : stampScan fp now e = { e with last_used := now } := by
          simp [stampScan, hf, hff]
        simp [fuGo, hf, htu, ihtl, hdead, hstamp]
    · have hdead : deadIdxs fp idx (e :: tl) = deadIdxs fp (idx + 1) tl := by
        rw [deadIdxs_cons]
        simp [hf]
      have hstamp : stampScan fp now e = e := by
        simp [stampScan, hf]
      simp [fuGo, hf, ihtl, hdead, hstamp]

/-- `find_usable` on a table with a first usable matching slot at `i`. -/
theorem find_usable_some_eq (entries : List PoolEntry)
    (fp : NailgunProcessFingerprint) (now : Nat) (i : Nat)
    (hi : i < entries.length)
    (hpre : ∀ j (hj : j < entries.length), j < i →
      ¬((entries.get ⟨j, hj⟩).fingerprint = fp ∧
        (entries.get ⟨j, hj⟩).locked = false ∧
        (entries.get ⟨j, hj⟩).exited = false))
    (hfp : (entries.get ⟨i, hi⟩).fingerprint = fp)
    (hlo : (entries.get ⟨i, hi⟩).locked = false)
    (hex : (entries.get ⟨i, hi⟩).exited = false) :
    find_usable entries fp now =
      (some (i, (entries.get ⟨i, hi⟩).pid),
        (entries.take i).map (stampScan fp now) ++
          ({ entries.get ⟨i, hi⟩ with last_used := now, locked := true } ::
            entries.drop (i + 1))) := by
  have hu := fuGo_usable fp now entries 0 i hi hpre hfp hlo hex
  unfold find_usable
  rcases hgo : fuGo fp now 0 entries with ⟨res, e2, ds⟩
  rw [hgo] at hu
  have h1 : res = some (0 + i, (entries.get ⟨i, hi⟩).pid) := hu.1
  have h2 : e2 = (entries.take i).map (stampScan fp now) ++
      ({ entries.get ⟨i, hi⟩ with last_used := now, locked := true } ::
        entries.drop (i + 1)) := hu.2
  subst h1
  subst h2
  rw [Nat.zero_add]

/-- `find_usable` on a table with no usable matching slot: the result is
`none` and the table is stamped and pruned as `pruneDeadSpec`
describes. -/
theorem find_usable_none_eq (entries : List PoolEntry)
    (fp : NailgunProcessFingerprint) (now : Nat)
    (hno : ∀ i (hi : i < entries.length),
      ¬((entries.get ⟨i, hi⟩).fingerprint = fp ∧
        (entries.get ⟨i, hi⟩).locked = false ∧
        (entries.get ⟨i, hi⟩).exited = false)) :
    find_usable entries fp now = (none, pruneDeadSpec entries fp now) := by
  unfold find_usable
  rw [fuGo_none fp now entries 0 hno]
  rfl

/-- Collected dead indices lie within the scanned window. -/
theorem deadIdxs_bounds (fp : NailgunProcessFingerprint) :
    ∀ (l : List PoolEntry) (idx d : Nat), d ∈ deadIdxs fp idx l →
      idx ≤ d ∧ d < idx + l.length := by
  intro l
  induction l with
  | nil =>
    intro idx d hd
    rw [show deadIdxs fp idx [] = [] from rfl] at hd
    exact absurd hd (List.not_mem_nil d)
  | cons e tl ih =>
    intro idx d hd
    have hlen : (e :: tl).length = tl.length + 1 := rfl
    rw [deadIdxs_cons] at hd
    by_cases hc : e.fingerprint = fp ∧ e.locked = false ∧ e.exited = true
    · rw [if_pos hc] at hd
      rcases List.mem_cons.mp hd with heq | hmem
      · subst heq
        constructor
        · exact Nat.le_refl d
        · omega
      · have hb := ih (idx + 1) d hmem
        constructor <;> omega
    · rw [if_neg hc] at hd
      have hb := ih (idx + 1) d hd
      constructor <;> omega

/-- Collected dead indices are strictly increasing. -/
theorem deadIdxs_sorted (fp : NailgunProcessFingerprint) :
    ∀ (l : List PoolEntry) (idx : Nat),
      List.Pairwise (fun a b => a < b) (deadIdxs fp idx l) := by
  intro l
  induction l with
  | nil =>
    intro idx
    rw [show deadIdxs fp idx [] = [] from rfl]
    exact List.Pairwise.nil
  | cons e tl ih =>
    intro idx
    rw [deadIdxs_cons]
    by_cases hc : e.fingerprint = fp ∧ e.locked = false ∧ e.exited = true
    · rw [if_pos hc]
      refine List.Pairwise.cons ?_ (ih (idx + 1))
      intro d hd
      have hb := (deadIdxs_bounds fp tl (idx + 1) d hd).1
      omega
    · rw [if_neg hc]
      exact ih (idx + 1)

/-- Every matching dead idle position is collected. -/
theorem deadIdxs_complete (fp : NailgunProcessFingerprint) :
    ∀ (l : List PoolEntry) (idx k : Nat) (hk : k < l.length),
      (l.get ⟨k, hk⟩).fingerprint = fp → (l.get ⟨k, hk⟩).locked = false →
      (l.get ⟨k, hk⟩).exited = true → (idx + k) ∈ deadIdxs fp idx l := by
  intro l
  induction l with
  | nil => intro idx k hk; exact absurd hk (Nat.not_lt_zero k)
  | cons e tl ih =>
    intro idx k hk hfp hlo hex
    rw [deadIdxs_cons]
    cases k with
    | zero =>
      have hc : e.fingerprint = fp ∧ e.locked = false ∧ e.exited = true :=
        ⟨hfp, hlo, hex⟩
      rw [if_pos hc]
      show idx + 0 ∈ idx :: deadIdxs fp (idx + 1) tl
      rw [Nat.add_zero]
      exact List.mem_cons_self idx _
    | succ k2 =>
      have hk2 : k2 < tl.length := Nat.lt_of_succ_lt_succ hk
      have hmem := ih (idx + 1) k2 hk2 hfp hlo hex
      have harith : idx + (k2 + 1) = idx + 1 + k2 := by omega
      rw [harith]
      by_cases hc : e.fingerprint = fp ∧ e.locked = false ∧ e.exited = true
      · rw [if_pos hc]
        exact List.mem_cons_of_mem idx hmem
      · rw [if_neg hc]
        exact hmem

/-- Element view of swap-removal: position `i` now holds the old last
element, every other surviving position is unchanged. -/
theorem getElem?_swapRemove (l : List PoolEntry) (i : Nat)
    (hi : i < l.length) (p : Nat) (hp : p < l.length - 1) :
    (swapRemove l i)[p]? = if p = i then l[l.length - 1]? else l[p]? := by
  rcases ha : l.getLast? with _ | a
  · have hnil : l = [] := List.getLast?_eq_none_iff.mp ha
    rw [hnil] at hi
    exact absurd hi (Nat.not_lt_zero i)
  · have hsw : swapRemove l i = (l.set i a).dropLast := by
      unfold swapRemove
      rw [ha]
    have hlast : l[l.length - 1]? = some a := by
      have h3 := List.getLast?_eq_getElem? l
      rw [ha] at h3
      exact h3.symm
    have hpd : p < (l.set i a).dropLast.length := by
      rw [List.length_dropLast, List.length_set]
      exact hp
    have hps : p < (l.set i a).length := by
      rw [List.length_set]
      omega
    rw [hsw, List.getElem?_eq_getElem hpd, List.getElem_dropLast,
      List.getElem_set]
    by_cases hpi : p = i
    · rw [if_pos hpi, if_pos hpi.symm, hlast]
    · rw [if_neg hpi, if_neg (fun h => hpi h.symm),
        List.getElem?_eq_getElem (by omega : p < l.length)]

/-- A member of a valid swap-removal comes from a position other than the
removed one. -/
theorem mem_swapRemove_pos (l : List PoolEntry) (i : Nat)
    (hi : i < l.length) (x : PoolEntry) (hx : x ∈ swapRemove l i) :
    ∃ k, ∃ hk : k < l.length, k ≠ i ∧ l.get ⟨k, hk⟩ = x := by
  rcases List.mem_iff_get.mp hx with ⟨⟨p, hp⟩, hget⟩
  have hp2 : p < l.length - 1 := by
    rw [length_swapRemove l i hi] at hp
    exact hp
  have hq := getElem?_swapRemove l i hi p hp2
  have hsome : (swapRemove l i)[p]? = some x := by
    rw [List.getElem?_eq_getElem hp]
    exact congrArg some hget
  rw [hsome] at hq
  by_cases hpi : p = i
  · rw [if_pos hpi] at hq
    have hlen : l.length - 1 < l.length := by omega
    rw [List.getElem?_eq_getElem hlen] at hq
    refine ⟨l.length - 1, hlen, by omega, ?_⟩
    exact (Option.some.inj hq).symm
  · rw [if_neg hpi] at hq
    have hpl : p < l.length := by omega
    rw [List.getElem?_eq_getElem hpl] at hq
    refine ⟨p, hpl, hpi, ?_⟩
    exact (Option.some.inj hq).symm

/-- A member of a fold of swap-removals at strictly decreasing valid
indices comes from a position outside the removed index set. -/
theorem mem_foldl_swapRemove :
    ∀ (ds : List Nat) (l : List PoolEntry),
      List.Pairwise (fun a b => b < a) ds →
      (∀ d ∈ ds, d < l.length) →
      ∀ x ∈ List.foldl swapRemove l ds,
        ∃ k, ∃ hk : k < l.length, k ∉ ds ∧ l.get ⟨k, hk⟩ = x := by
  intro ds
  induction ds with
  | nil =>
    intro l _ _ x hx
    rcases List.mem_iff_get.mp hx with ⟨⟨k, hk⟩, hget⟩
    exact ⟨k, hk, List.not_mem_nil k, hget⟩
  | cons d rest ih =>
    intro l hpw hbound x hx
    have hd : d < l.length := hbound d (List.mem_cons_self d rest)
    rw [List.foldl_cons] at hx
    have hrest_lt : ∀ r ∈ rest, r < d :=
      fun r hr => (List.pairwise_cons.mp hpw).1 r hr
    have hrest_bound : ∀ r ∈ rest, r < (swapRemove l d).length := by
      intro r hr
      rw [length_swapRemove l d hd]
      have h1 := hrest_lt r hr
      omega
    rcases ih (swapRemove l d) (List.pairwise_cons.mp hpw).2 hrest_bound x hx
      with ⟨k2, hk2, hk2nin, hget⟩
    have hk2b : k2 < l.length - 1 := by
      rw [length_swapRemove l d hd] at hk2
      exact hk2
    have hq := getElem?_swapRemove l d hd k2 hk2b
    have hsome : (swapRemove l d)[k2]? = some x := by
      rw [List.getElem?_eq_getElem hk2]
      exact congrArg some hget
    rw [hsome] at hq
    by_cases hki : k2 = d
    · rw [if_pos hki] at hq
      have hlen : l.length - 1 < l.length := by omega
      rw [List.getElem?_eq_getElem hlen] at hq
      refine ⟨l.length - 1, hlen, ?_, ?_⟩
      · intro hmem
        rcases List.mem_cons.mp hmem with heq | hmem2
        · omega
        · have h2 := hrest_lt _ hmem2
          omega
      · exact (Option.some.inj hq).symm
    · rw [if_neg hki] at hq
      have hk2l : k2 < l.length := by omega
      rw [List.getElem?_eq_getElem hk2l] at hq
      refine ⟨k2, hk2l, ?_, ?_⟩
      · intro hmem
        rcases List.mem_cons.mp hmem with heq | hmem2
        · exact hki heq
        · exact hk2nin hmem2
      · exact (Option.some.inj hq).symm

/-- Stamping only touches `last_used`. -/
theorem stampScan_fields (fp : NailgunProcessFingerprint) (now : Nat)
    (e : PoolEntry) :
    (stampScan fp now e).fingerprint = e.fingerprint ∧
    (stampScan fp now e).locked = e.locked ∧
    (stampScan fp now e).exited = e.exited ∧
    (stampScan fp now e).pid = e.pid := by
  unfold stampScan
  by_cases hc : e.fingerprint = fp ∧ e.locked = false
  · rw [if_pos hc]
    exact ⟨rfl, rfl, rfl, rfl⟩
  · rw [if_neg hc]
    exact ⟨rfl, rfl, rfl, rfl⟩

/-- After the spec-side pruning, no matching dead idle slot remains: any
surviving entry that matches and is dead must be one whose lock was
held. -/
theorem pruneDeadSpec_reaped (entries : List PoolEntry)
    (fp : NailgunProcessFingerprint) (now : Nat) :
    ∀ x ∈ pruneDeadSpec entries fp now,
      x.fingerprint = fp → x.exited = true → x.locked = true := by
  intro x hx hfp hex
  unfold pruneDeadSpec at hx
  have hpw : List.Pairwise (fun a b => b < a)
      (deadIdxs fp 0 entries).reverse := by
    rw [List.pairwise_reverse]
    exact deadIdxs_sorted fp entries 0
  have hbound : ∀ d ∈ (deadIdxs fp 0 entries).reverse,
      d < (entries.map (stampScan fp now)).length := by
    intro d hd
    rw [List.mem_reverse] at hd
    have hb := (deadIdxs_bounds fp entries 0 d hd).2
    rw [List.length_map]
    omega
  rcases mem_foldl_swapRemove _ _ hpw hbound x hx with ⟨k, hk, hknin, hget⟩
  have hkl : k < entries.length := by
    rw [List.length_map] at hk
    exact hk
  have hxval : x = stampScan fp now (entries.get ⟨k, hkl⟩) := by
    rw [← hget]
    exact List.getElem_map (stampScan fp now)
  rcases stampScan_fields fp now (entries.get ⟨k, hkl⟩) with ⟨hf1, hf2, hf3, _⟩
  rcases Bool.eq_false_or_eq_true x.locked with hxt | hxf
  · exact hxt
  · exfalso
    have he_fp : (entries.get ⟨k, hkl⟩).fingerprint = fp := by
      rw [hxval, hf1] at hfp
      exact hfp
    have he_lo : (entries.get ⟨k, hkl⟩).locked = false := by
      rw [hxval, hf2] at hxf
      exact hxf
    have he_ex : (entries.get ⟨k, hkl⟩).exited = true := by
      rw [hxval, hf3] at hex
      exact hex
    have hmem := deadIdxs_complete fp entries 0 k hkl he_fp he_lo he_ex
    rw [Nat.zero_add] at hmem
    apply hknin
    rw [List.mem_reverse]
    exact hmem

/-- Unfolding of `acquire` when the scan finds nothing usable. -/
theorem acquire_of_find_usable_none (entries : List PoolEntry) (size : Nat)
    (fp : NailgunProcessFingerprint) (now : Nat) (spawn : Except String Nat)
    (P : List PoolEntry) (hfu : find_usable entries fp now = (none, P)) :
    acquire entries size fp now spawn =
      if P.length ≥ size then
        match find_lru_idle P now with
        | none => (Except.error noIdleSlotsMsg, P)
        | some idx =>
          match spawn with
          | Except.error e => (Except.error e, swapRemove P idx)
          | Except.ok pid =>
            (Except.ok pid, swapRemove P idx ++ [⟨fp, now, pid, true, false⟩])
      else
        match spawn with
        | Except.error e => (Except.error e, P)
        | Except.ok pid => (Except.ok pid, P ++ [⟨fp, now, pid, true, false⟩]) := by
  unfold acquire
  rw [hfu]

/-- Claim C4: `find_usable` walks the slots in order and returns the
index (with the lock held, visible as `locked := true` in the resulting
entry) of the first slot matching `fp` whose `try_use` is Usable (mutex
free, child alive); only when no such slot exists does it swap-remove
exactly the matching slots observed Dead, processing the remembered
indices in reverse order, and return none. -/
theorem find_usable_first_match_and_prune (entries : List PoolEntry)
    (fp : NailgunProcessFingerprint) (now : Nat) :
    (∀ i (hi : i < entries.length),
      (∀ j (hj : j < entries.length), j < i →
        ¬((entries.get ⟨j, hj⟩).fingerprint = fp ∧
          (entries.get ⟨j, hj⟩).locked = false ∧
          (entries.get ⟨j, hj⟩).exited = false)) →
      (entries.get ⟨i, hi⟩).fingerprint = fp →
      (entries.get ⟨i, hi⟩).locked = false →
      (entries.get ⟨i, hi⟩).exited = false →
      find_usable entries fp now =
        (some (i, (entries.get ⟨i, hi⟩).pid),
          (entries.take i).map (stampScan fp now) ++
            ({ entries.get ⟨i, hi⟩ with last_used := now, locked := true } ::
              entries.drop (i + 1)))) ∧
    ((∀ i (hi : i < entries.length),
        ¬((entries.get ⟨i, hi⟩).fingerprint = fp ∧
          (entries.get ⟨i, hi⟩).locked = false ∧
          (entries.get ⟨i, hi⟩).exited = false)) →
      find_usable entries fp now = (none, pruneDeadSpec entries fp now)) :=
  ⟨fun i hi hpre hfp hlo hex =>
    find_usable_some_eq entries fp now i hi hpre hfp hlo hex,
   fun hno => find_usable_none_eq entries fp now hno⟩

/-- Witness for C4: a table with a busy matching slot at index 0 and an
idle live matching slot at index 1; the scan returns index 1 with its
lock held and leaves the busy slot unstamped. -/
theorem find_usable_first_match_and_prune_witness :
    (∀ j (hj : j < ([⟨⟨"a", 1⟩, 10, 1, true, false⟩,
        ⟨⟨"a", 1⟩, 20, 2, false, false⟩] : List PoolEntry).length), j < 1 →
      ¬((([⟨⟨"a", 1⟩, 10, 1, true, false⟩,
          ⟨⟨"a", 1⟩, 20, 2, false, false⟩] : List PoolEntry).get
            ⟨j, hj⟩).fingerprint = ⟨"a", 1⟩ ∧
        (([⟨⟨"a", 1⟩, 10, 1, true, false⟩,
          ⟨⟨"a", 1⟩, 20, 2, false, false⟩] : List PoolEntry).get
            ⟨j, hj⟩).locked = false ∧
        (([⟨⟨"a", 1⟩, 10, 1, true, false⟩,
          ⟨⟨"a", 1⟩, 20, 2, false, false⟩] : List PoolEntry).get
            ⟨j, hj⟩).exited = false)) ∧
    find_usable [⟨⟨"a", 1⟩, 10, 1, true, false⟩,
        ⟨⟨"a", 1⟩, 20, 2, false, false⟩] ⟨"a", 1⟩ 30 =
      (some (1, 2), [⟨⟨"a", 1⟩, 10, 1, true, false⟩,
        ⟨⟨"a", 1⟩, 30, 2, true, false⟩]) :=
  ⟨by decide,
    (find_usable_first_match_and_prune [⟨⟨"a", 1⟩, 10, 1, true, false⟩,
        ⟨⟨"a", 1⟩, 20, 2, false, false⟩] ⟨"a", 1⟩ 30).1 1 (by decide)
      (by decide) rfl rfl rfl⟩

/-- Claim C2 (amended): if a pool state holds a dead idle slot and the
next `acquire` matches its fingerprint while no usable matching slot
exists, every matching dead idle slot (that one included) is removed from
the table, and the call can only hand out the freshly spawned worker —
never a dead one.  (As originally stated the claim fails: a matching
usable slot earlier in the scan suppresses the pruning, and the eviction
path removes only the one LRU idle slot.) -/
theorem acquire_dead_reaping (entries : List PoolEntry) (size : Nat)
    (fp : NailgunProcessFingerprint) (now : Nat) (spawn : Except String Nat)
    (hno : ∀ i (hi : i < entries.length),
      ¬((entries.get ⟨i, hi⟩).fingerprint = fp ∧
        (entries.get ⟨i, hi⟩).locked = false ∧
        (entries.get ⟨i, hi⟩).exited = false)) :
    (∀ x ∈ (acquire entries size fp now spawn).2,
      x.fingerprint = fp → x.exited = true → x.locked = true) ∧
    (∀ pid, (acquire entries size fp now spawn).1 = Except.ok pid →
      spawn = Except.ok pid) := by
  have hfu : find_usable entries fp now = (none, pruneDeadSpec entries fp now) :=
    find_usable_none_eq entries fp now hno
  have hpruned := pruneDeadSpec_reaped entries fp now
  rw [acquire_of_find_usable_none entries size fp now spawn
    (pruneDeadSpec entries fp now) hfu]
  by_cases hge : (pruneDeadSpec entries fp now).length ≥ size
  · rcases hlru : find_lru_idle (pruneDeadSpec entries fp now) now with _ | idx
    · rw [if_pos hge]
      exact ⟨hpruned, fun pid h => Except.noConfusion h⟩
    · have hidx : idx < (pruneDeadSpec entries fp now).length :=
        find_lru_idle_some_lt _ now idx hlru
      cases spawn with
      | error e =>
        rw [if_pos hge]
        constructor
        · intro x hx hxfp hxex
          rcases mem_swapRemove_pos _ idx hidx x hx with ⟨k, hk, _, hget⟩
          refine hpruned x ?_ hxfp hxex
          rw [← hget]
          exact List.get_mem _ k hk
        · intro pid h
          exact Except.noConfusion h
      | ok pid2 =>
        rw [if_pos hge]
        constructor
        · intro x hx hxfp hxex
          rcases List.mem_append.mp hx with hx1 | hx2
          · rcases mem_swapRemove_pos _ idx hidx x hx1 with ⟨k, hk, _, hget⟩
            refine hpruned x ?_ hxfp hxex
            rw [← hget]
            exact List.get_mem _ k hk
          · have hx3 : x = (⟨fp, now, pid2, true, false⟩ : PoolEntry) :=
              List.mem_singleton.mp hx2
            rw [hx3]
        · intro pid h
          rw [Except.ok.inj h]
  · cases spawn with
    | error e =>
      rw [if_neg hge]
      exact ⟨fun x hx hxfp hxex => hpruned x hx hxfp hxex,
        fun pid h => Except.noConfusion h⟩
    | ok pid2 =>
      rw [if_neg hge]
      constructor
      · intro x hx hxfp hxex
        rcases List.mem_append.mp hx with hx1 | hx2
        · exact hpruned x hx1 hxfp hxex
        · have hx3 : x = (⟨fp, now, pid2, true, false⟩ : PoolEntry) :=
            List.mem_singleton.mp hx2
          rw [hx3]
      · intro pid h
        rw [Except.ok.inj h]

/-- Counterexample for C2 as stated: a table with a live idle matching
slot at index 0 and a dead idle slot of the same fingerprint at index 1.
The acquire matches that fingerprint and succeeds, yet the dead idle
matching slot is still in the table afterwards (the scan stops at the
usable hit and prunes nothing). -/
theorem acquire_dead_reaping_counterexample :
    (([⟨⟨"a", 1⟩, 10, 1, false, false⟩,
        ⟨⟨"a", 1⟩, 20, 2, false, true⟩] : List PoolEntry).any
      fun e => e.fingerprint == ⟨"a", 1⟩ && !e.locked && e.exited) = true ∧
    (acquire [⟨⟨"a", 1⟩, 10, 1, false, false⟩,
        ⟨⟨"a", 1⟩, 20, 2, false, true⟩] 2 ⟨"a", 1⟩ 30 (Except.ok 3)).1 =
      Except.ok 1 ∧
    ((acquire [⟨⟨"a", 1⟩, 10, 1, false, false⟩,
        ⟨⟨"a", 1⟩, 20, 2, false, true⟩] 2 ⟨"a", 1⟩ 30 (Except.ok 3)).2.any
      fun e => e.fingerprint == ⟨"a", 1⟩ && !e.locked && e.exited) = true := by
  exact ⟨rfl, rfl, rfl⟩

/-- Witness for C2 (amended): a one-slot table holding only a dead idle
matching slot; after the acquire the dead slot is gone and the fresh
worker is returned. -/
theorem acquire_dead_reaping_witness :
    (∀ i (hi : i < ([⟨⟨"a", 1⟩, 10, 7, false, true⟩] :
        List PoolEntry).length),
      ¬((([⟨⟨"a", 1⟩, 10, 7, false, true⟩] : List PoolEntry).get
          ⟨i, hi⟩).fingerprint = ⟨"a", 1⟩ ∧
        (([⟨⟨"a", 1⟩, 10, 7, false, true⟩] : List PoolEntry).get
          ⟨i, hi⟩).locked = false ∧
        (([⟨⟨"a", 1⟩, 10, 7, false, true⟩] : List PoolEntry).get
          ⟨i, hi⟩).exited = false)) ∧
    ((∀ x ∈ (acquire [⟨⟨"a", 1⟩, 10, 7, false, true⟩] 2 ⟨"a", 1⟩ 30
        (Except.ok 3)).2,
      x.fingerprint = ⟨"a", 1⟩ → x.exited = true → x.locked = true) ∧
     (∀ pid, (acquire [⟨⟨"a", 1⟩, 10, 7, false, true⟩] 2 ⟨"a", 1⟩ 30
        (Except.ok 3)).1 = Except.ok pid →
        (Except.ok 3 : Except String Nat) = Except.ok pid)) :=
  ⟨by decide,
    acquire_dead_reaping [⟨⟨"a", 1⟩, 10, 7, false, true⟩] 2 ⟨"a", 1⟩ 30
      (Except.ok 3) (by decide)⟩

/-- Claim C10: a pool of size 0 keeps an empty slot table under every
operation sequence, and every `acquire` on it fails with
"No idle slots in nailgun pool." without spawning (the result and the
table do not depend on the spawn outcome). -/
theorem acquire_size_zero :
    (∀ ops : List PoolOp, runOps 0 ops [] = []) ∧
    ∀ (fp : NailgunProcessFingerprint) (now : Nat)
      (spawn : Except String Nat),
      acquire [] 0 fp now spawn =
        (Except.error "No idle slots in nailgun pool.", []) := by
  constructor
  · intro ops
    induction ops with
    | nil => rfl
    | cons op tl ih =>
      have hstep : ∀ op2 : PoolOp, applyOp 0 [] op2 = [] := by
        intro op2
        cases op2 <;> rfl
      show runOps 0 (op :: tl) [] = []
      rw [runOps, List.foldl_cons, hstep op]
      exact ih
  · intro fp now spawn
    rfl

end NailgunPool
